import Mathlib

/-!
Verification of the QuizMaster API attempt/scoring/ranking core.

This file is a shallow embedding, in Lean 4, of the business-logic core of the
Go repository (package `services`: `ScoringService.CalculateScore`; package
`handlers`: `StartAttempt`, `SubmitAnswer`, `CompleteAttempt`,
`GetQuizLeaderboard`, `GetMyRank`, `GetGlobalLeaderboard`).

Modelling conventions:
* Go `float64` score arithmetic is idealised as exact rational arithmetic (`ℚ`);
  all score values that actually arise are exact in hundredths, so the
  2-decimal rounding performed by the code is exact on them.
* MongoDB object ids are modelled as `ℕ`; timestamps as rationals counting
  seconds.  `time.Time` subtraction followed by `int(… .Seconds())` is
  truncation toward zero of the rational difference.
* The Mongo store of attempts is a list of records; `FindOne` is `List.find?`
  (first match in store order), `UpdateOne` updates the first match,
  `InsertOne` appends (failing on a duplicate `_id`, which models MongoDB's
  unique index on `_id`), `CountDocuments` is `List.countP`, and a `Find` with
  a sort returns a stable sort of the store (`List.insertionSort`), i.e. some
  order consistent with the sort keys — Mongo guarantees nothing more for
  documents that tie on all sort keys.
* Handlers are sequential functions of the store; each returns the new store
  together with an `HTTP`-style result.
-/

/-- Go's `math.Round`: round to the nearest integer, ties rounded away from
zero (as used by `CalculateScore` via `math.Round(score*100) / 100`). -/
def goRound (x : ℚ) : ℤ :=
  if 0 ≤ x then ⌊x + 1 / 2⌋ else ⌈x - 1 / 2⌉

/-- Go's conversion `int(x)` for `x : float64`: truncation toward zero. -/
def ratTrunc (x : ℚ) : ℤ :=
  if 0 ≤ x then ⌊x⌋ else ⌈x⌉

/-- `ScoringService.CalculateScore` (`services/scoring_service.go`):
full points within 5 seconds, linear decay from 100% to 70% between 5 and 10
seconds, 50% after 10 seconds, 0 for an incorrect answer; the product is
rounded to 2 decimal places with `math.Round(score*100) / 100`. -/
def CalculateScore (basePoints : ℤ) (timeToAnswer : ℤ) (isCorrect : Bool) : ℚ :=
  match isCorrect with
  | false => 0
  | true =>
    let multiplier : ℚ :=
      if timeToAnswer ≤ 5 then 1
      else if timeToAnswer ≤ 10 then 1 - (((timeToAnswer : ℚ) - 5) / 5) * (3 / 10)
      else 1 / 2
    let score : ℚ := (basePoints : ℚ) * multiplier
    (goRound (score * 100) : ℚ) / 100

theorem goRound_intCast (n : ℤ) : goRound (n : ℚ) = n := by
  unfold goRound
  split
  · rw [Int.floor_eq_iff]
    exact ⟨by linarith, by linarith⟩
  · rw [Int.ceil_eq_iff]
    exact ⟨by linarith, by linarith⟩

theorem goRound_of_eq_intCast {x : ℚ} {n : ℤ} (h : x = (n : ℚ)) : goRound x = n := by
  rw [h, goRound_intCast]

theorem calculateScore_false (p t : ℤ) : CalculateScore p t false = 0 := rfl

theorem calculateScore_fast (p t : ℤ) (h : t ≤ 5) : CalculateScore p t true = (p : ℚ) := by
  show (goRound ((p : ℚ) * (if t ≤ 5 then (1 : ℚ)
      else if t ≤ 10 then 1 - (((t : ℚ) - 5) / 5) * (3 / 10) else 1 / 2) * 100) : ℚ) / 100
      = (p : ℚ)
  rw [if_pos h, goRound_of_eq_intCast (n := 100 * p) (by push_cast; ring)]
  push_cast
  ring

theorem calculateScore_mid (p t : ℤ) (h1 : 5 < t) (h2 : t ≤ 10) :
    CalculateScore p t true = (p : ℚ) * (1 - (((t : ℚ) - 5) / 5) * (3 / 10)) := by
  show (goRound ((p : ℚ) * (if t ≤ 5 then (1 : ℚ)
      else if t ≤ 10 then 1 - (((t : ℚ) - 5) / 5) * (3 / 10) else 1 / 2) * 100) : ℚ) / 100
      = (p : ℚ) * (1 - (((t : ℚ) - 5) / 5) * (3 / 10))
  rw [if_neg (by omega), if_pos h2,
    goRound_of_eq_intCast (n := p * (100 - 6 * (t - 5))) (by push_cast; ring)]
  push_cast
  ring

theorem calculateScore_slow (p t : ℤ) (h : 10 < t) :
    CalculateScore p t true = (p : ℚ) * (1 / 2) := by
  show (goRound ((p : ℚ) * (if t ≤ 5 then (1 : ℚ)
      else if t ≤ 10 then 1 - (((t : ℚ) - 5) / 5) * (3 / 10) else 1 / 2) * 100) : ℚ) / 100
      = (p : ℚ) * (1 / 2)
  rw [if_neg (by omega), if_neg (by omega),
    goRound_of_eq_intCast (n := p * 50) (by push_cast; ring)]
  push_cast
  ring

theorem calculateScore_nonneg (p t : ℤ) (c : Bool) (hp : 0 ≤ p) :
    0 ≤ CalculateScore p t c := by
  have hpq : (0 : ℚ) ≤ (p : ℚ) := by exact_mod_cast hp
  cases c
  · rw [calculateScore_false]
  · rcases le_or_lt t 5 with h | h
    · rw [calculateScore_fast p t h]; exact hpq
    · rcases le_or_lt t 10 with h2 | h2
      · rw [calculateScore_mid p t h h2]
        have ht : (t : ℚ) ≤ 10 := by exact_mod_cast h2
        nlinarith
      · rw [calculateScore_slow p t h2]
        nlinarith

theorem calculateScore_le (p t : ℤ) (c : Bool) (hp : 0 ≤ p) :
    CalculateScore p t c ≤ (p : ℚ) := by
  have hpq : (0 : ℚ) ≤ (p : ℚ) := by exact_mod_cast hp
  cases c
  · rw [calculateScore_false]; exact hpq
  · rcases le_or_lt t 5 with h | h
    · rw [calculateScore_fast p t h]
    · rcases le_or_lt t 10 with h2 | h2
      · rw [calculateScore_mid p t h h2]
        have ht : (6 : ℚ) ≤ (t : ℚ) := by exact_mod_cast h
        nlinarith
      · rw [calculateScore_slow p t h2]
        nlinarith

/-! ### Answer comparison (`SubmitAnswer`, `handlers/attempt_handler.go`)

The question's stored correct answer is a BSON `interface{}` value; the
handler converts it to a string and compares that string against the
submitted string (`req.Answer`). -/

/-- The dynamic type of `models.Question.CorrectAnswer` (`interface{}`):
a string, a boolean, an integer, a float, or anything else (`aOther`,
which the Go type switch leaves as the empty string). -/
inductive CorrectAnswer where
  | aString (s : String)
  | aBool (b : Bool)
  | aInt (v : ℤ)
  | aFloat (x : ℚ)
  | aOther
deriving DecidableEq

/-- Go's conversion `rune(v)` of an integer: wrap into signed 32-bit range. -/
def int32wrap (v : ℤ) : ℤ :=
  (v + 2 ^ 31) % 2 ^ 32 - 2 ^ 31

/-- Go's conversion `string(r)` of a rune: the one-character string for a
valid Unicode code point, `"�"` otherwise. -/
def goRuneString (r : ℤ) : String :=
  if (0 ≤ r ∧ r < 0xd800) ∨ (0xe000 ≤ r ∧ r < 0x110000) then
    String.mk [Char.ofNat r.toNat]
  else "�"

/-- The type switch in `SubmitAnswer` that builds `correctAnswerStr`:
a string is used as-is; a bool becomes `"true"`/`"false"`; an int `v`
becomes `string(rune(v + '0'))`; a float is truncated to int first;
any other type leaves the empty string. -/
def goAnswerString : CorrectAnswer → String
  | CorrectAnswer.aString s => s
  | CorrectAnswer.aBool b => if b then "true" else "false"
  | CorrectAnswer.aInt v => goRuneString (int32wrap (v + 48))
  | CorrectAnswer.aFloat x => goRuneString (int32wrap (ratTrunc x + 48))
  | CorrectAnswer.aOther => ""

/-- `isCorrect = req.Answer == correctAnswerStr` in `SubmitAnswer`. -/
def goIsCorrect (submitted : String) (ca : CorrectAnswer) : Bool :=
  submitted == goAnswerString ca

/-- Question type (`models.QuestionType`): `true_false` or `multiple_choice`. -/
inductive QuestionType where
  | trueFalse
  | multipleChoice
deriving DecidableEq

/-- Decimal-digit parser used only by the specification-side definition:
interprets a string of digits as a natural number. -/
def decDigits : List Char → Option ℕ
  | [] => none
  | cs => cs.foldl (fun acc c =>
      match acc with
      | none => none
      | some n => if 48 ≤ c.toNat ∧ c.toNat ≤ 57 then some (n * 10 + (c.toNat - 48)) else none)
      (some 0)

/-- Specification-side definition, following the spec's words: correctness is
"type-appropriate equality (boolean equality for true/false questions; index
equality for select questions)" between the submitted value and the stored
correct answer, "not a lossy string coercion".  The submitted value arrives
as a string, so it is parsed into the question type's value space first. -/
def specTypedEq (qt : QuestionType) (submitted : String) (ca : CorrectAnswer) : Bool :=
  match qt with
  | QuestionType.trueFalse =>
    match ca with
    | CorrectAnswer.aBool b =>
      if submitted = "true" then b = true
      else if submitted = "false" then b = false
      else false
    | _ => false
  | QuestionType.multipleChoice =>
    match ca with
    | CorrectAnswer.aInt v =>
      match decDigits submitted.data with
      | some n => (n : ℤ) = v
      | none => false
    | _ => false

/-! ### Data model (`models/models.go`) -/

/-- Quiz approval status (`models.QuizStatus`). -/
inductive QuizStatus where
  | pending
  | approved
  | rejected
deriving DecidableEq

/-- `models.Question`. -/
structure Question where
  id : ℕ
  qtype : QuestionType
  options : List String
  correctAnswer : CorrectAnswer
  timeLimit : ℤ
  points : ℤ
deriving DecidableEq

/-- `models.Quiz` (fields the attempt/ranking core reads). -/
structure Quiz where
  courseId : String
  status : QuizStatus
  questions : List Question
deriving DecidableEq

/-- `models.Answer`. -/
structure Answer where
  questionId : ℕ
  studentAnswer : String
  isCorrect : Bool
  timeToAnswer : ℤ
  pointsEarned : ℚ
  answeredAt : ℚ
deriving DecidableEq

/-- `models.QuizAttempt`. -/
structure QuizAttempt where
  id : ℕ
  quizId : ℕ
  studentId : ℕ
  answers : List Answer
  totalScore : ℚ
  maxScore : ℚ
  startedAt : ℚ
  completedAt : Option ℚ
  timeTaken : ℤ
deriving DecidableEq

/-- `models.User` (fields the leaderboard reads). -/
structure User where
  firstName : String
  lastName : String
deriving DecidableEq

/-- `models.LeaderboardEntry`. -/
structure LeaderboardEntry where
  rank : ℕ
  studentId : ℕ
  studentName : String
  score : ℚ
  maxScore : ℚ
  percentage : ℚ
  timeTaken : ℤ
  completedAt : ℚ
deriving DecidableEq

/-- HTTP-style error outcomes of the handlers. -/
inductive Err where
  | notFound
  | badRequest
  | forbidden
  | conflict
  | internal
deriving DecidableEq

/-- Handler result: an error status, or a payload. -/
inductive HResult (α : Type) where
  | error (e : Err)
  | ok (a : α)
deriving DecidableEq

/-! ### Attempt handlers (`handlers/attempt_handler.go`) -/

/-- `maxScore := 0.0; for _, q := range quiz.Questions { maxScore += float64(q.Points) }`. -/
def sumPoints (qs : List Question) : ℚ :=
  (qs.map (fun q => (q.points : ℚ))).sum

/-- `UpdateOne` with an `_id` filter: rewrite the first matching record. -/
def updateFirst (p : QuizAttempt → Bool) (f : QuizAttempt → QuizAttempt) :
    List QuizAttempt → List QuizAttempt
  | [] => []
  | x :: xs => if p x then f x :: xs else x :: updateFirst p f xs

/-- The Mongo filter of `StartAttempt`'s ongoing-attempt check:
`{quiz_id, student_id, completed_at: {$exists: false}}`. -/
def inProgressFor (qid sid : ℕ) (a : QuizAttempt) : Bool :=
  a.quizId == qid && a.studentId == sid && a.completedAt.isNone

/-- `StartAttempt` (`handlers/attempt_handler.go`): look up the quiz, require
approved status, require the external course-completion check to return true,
reject when an in-progress attempt for this (student, quiz) already exists,
else insert a fresh attempt whose max score is the snapshot sum of the quiz's
question points.  `courseCompleted` returning `none` models the external call
failing; inserting a duplicate `_id` fails on MongoDB's unique index. -/
def startAttempt (quizzes : ℕ → Option Quiz) (courseCompleted : ℕ → String → Option Bool)
    (store : List QuizAttempt) (sid qid : ℕ) (now : ℚ) (newId : ℕ) :
    List QuizAttempt × HResult QuizAttempt :=
  match quizzes qid with
  | none => (store, HResult.error Err.notFound)
  | some quiz =>
    if quiz.status ≠ QuizStatus.approved then (store, HResult.error Err.forbidden)
    else
      match courseCompleted sid quiz.courseId with
      | none => (store, HResult.error Err.internal)
      | some false => (store, HResult.error Err.forbidden)
      | some true =>
        match store.find? (inProgressFor qid sid) with
        | some _ => (store, HResult.error Err.conflict)
        | none =>
          if store.any (fun a => a.id == newId) then (store, HResult.error Err.internal)
          else
            let attempt : QuizAttempt :=
              { id := newId, quizId := qid, studentId := sid, answers := [],
                totalScore := 0, maxScore := sumPoints quiz.questions,
                startedAt := now, completedAt := none, timeTaken := 0 }
            (store ++ [attempt], HResult.ok attempt)

/-- `SubmitAnswer` (`handlers/attempt_handler.go`): fetch the attempt by
`(_id, student_id)`, reject if already completed, fetch the quiz, find the
question in it, reject a duplicate answer or an over-limit response time,
derive correctness by string comparison, compute the points, then apply one
update that both appends the answer and increments the total score. -/
def submitAnswer (quizzes : ℕ → Option Quiz) (store : List QuizAttempt)
    (sid attemptId questionId : ℕ) (submitted : String) (timeToAnswer : ℤ) (now : ℚ) :
    List QuizAttempt × HResult (Bool × ℚ) :=
  match store.find? (fun a => a.id == attemptId && a.studentId == sid) with
  | none => (store, HResult.error Err.notFound)
  | some attempt =>
    if attempt.completedAt.isSome then (store, HResult.error Err.badRequest)
    else
      match quizzes attempt.quizId with
      | none => (store, HResult.error Err.notFound)
      | some quiz =>
        match quiz.questions.find? (fun q => q.id == questionId) with
        | none => (store, HResult.error Err.notFound)
        | some question =>
          if attempt.answers.any (fun ans => ans.questionId == questionId) then
            (store, HResult.error Err.badRequest)
          else if question.timeLimit < timeToAnswer then
            (store, HResult.error Err.badRequest)
          else
            let isCorrect := goIsCorrect submitted question.correctAnswer
            let pointsEarned := CalculateScore question.points timeToAnswer isCorrect
            let answer : Answer :=
              { questionId := questionId, studentAnswer := submitted,
                isCorrect := isCorrect, timeToAnswer := timeToAnswer,
                pointsEarned := pointsEarned, answeredAt := now }
            (updateFirst (fun a => a.id == attemptId)
              (fun a => { a with answers := a.answers ++ [answer],
                                 totalScore := a.totalScore + pointsEarned }) store,
             HResult.ok (isCorrect, pointsEarned))

/-- `CompleteAttempt` (`handlers/attempt_handler.go`): fetch the attempt by
`(_id, student_id)`, reject if already completed, else stamp the completion
time and the truncated whole-second duration since the start. -/
def completeAttempt (store : List QuizAttempt) (sid attemptId : ℕ) (now : ℚ) :
    List QuizAttempt × HResult Unit :=
  match store.find? (fun a => a.id == attemptId && a.studentId == sid) with
  | none => (store, HResult.error Err.notFound)
  | some attempt =>
    if attempt.completedAt.isSome then (store, HResult.error Err.badRequest)
    else
      (updateFirst (fun a => a.id == attemptId)
        (fun a => { a with completedAt := some now,
                           timeTaken := ratTrunc (now - attempt.startedAt) }) store,
       HResult.ok ())

/-! ### Ranking engine (`handlers/leaderboard_handler.go`) -/

/-- The Mongo sort used by `GetQuizLeaderboard` and `GetMyRank`:
`total_score` descending, then `time_taken` ascending.  `lbBefore a b` says
`a` may come no later than `b` under that sort; documents equal on both keys
are unordered, which the stable model sort leaves in store order. -/
def lbBefore (a b : QuizAttempt) : Prop :=
  b.totalScore < a.totalScore ∨ (a.totalScore = b.totalScore ∧ a.timeTaken ≤ b.timeTaken)

instance : DecidableRel lbBefore := fun a b => by
  unfold lbBefore
  infer_instance

instance : IsTotal QuizAttempt lbBefore :=
  ⟨by
    intro a b
    rcases lt_trichotomy a.totalScore b.totalScore with h | h | h
    · exact Or.inr (Or.inl h)
    · rcases le_total a.timeTaken b.timeTaken with h2 | h2
      · exact Or.inl (Or.inr ⟨h, h2⟩)
      · exact Or.inr (Or.inr ⟨h.symm, h2⟩)
    · exact Or.inl (Or.inl h)⟩

instance : IsTrans QuizAttempt lbBefore :=
  ⟨by
    intro a b c hab hbc
    rcases hab with h | ⟨he, ht⟩
    · rcases hbc with h2 | ⟨he2, _⟩
      · exact Or.inl (h2.trans h)
      · exact Or.inl (he2 ▸ h)
    · rcases hbc with h2 | ⟨he2, ht2⟩
      · exact Or.inl (he ▸ h2)
      · exact Or.inr ⟨he.trans he2, ht.trans ht2⟩⟩

/-- The store's completed attempts for one quiz
(`{quiz_id, completed_at: {$exists: true}}`). -/
def completedFor (store : List QuizAttempt) (qid : ℕ) : List QuizAttempt :=
  store.filter (fun a => a.quizId == qid && a.completedAt.isSome)

/-- The sorted cursor of `GetQuizLeaderboard`: completed attempts of the quiz
ordered by (score desc, time asc), ties left in store order. -/
def sortedCompleted (store : List QuizAttempt) (qid : ℕ) : List QuizAttempt :=
  List.insertionSort lbBefore (completedFor store qid)

/-- The per-entry percentage of `GetQuizLeaderboard`:
`0.0` unless `attempt.MaxScore > 0`. -/
def quizPercentage (a : QuizAttempt) : ℚ :=
  if 0 < a.maxScore then a.totalScore / a.maxScore * 100 else 0

/-- The entry-building loop of `GetQuizLeaderboard`: walk the sorted attempts
with a rank counter starting at 1; skip an attempt whose user lookup fails
(without consuming a rank), otherwise emit an entry and increment the rank. -/
def buildEntries (users : ℕ → Option User) :
    List QuizAttempt → ℕ → List LeaderboardEntry
  | [], _ => []
  | a :: rest, rank =>
    match users a.studentId with
    | none => buildEntries users rest rank
    | some u =>
      { rank := rank, studentId := a.studentId,
        studentName := u.firstName ++ " " ++ u.lastName,
        score := a.totalScore, maxScore := a.maxScore,
        percentage := quizPercentage a,
        timeTaken := a.timeTaken,
        completedAt := a.completedAt.getD 0 } :: buildEntries users rest (rank + 1)

/-- `GetQuizLeaderboard` (`handlers/leaderboard_handler.go`). -/
def getQuizLeaderboard (users : ℕ → Option User) (store : List QuizAttempt) (qid : ℕ) :
    List LeaderboardEntry :=
  buildEntries users (sortedCompleted store qid) 1

/-- The ordering the specification claims for leaderboard entries: score
descending, ties by time-taken ascending, remaining ties by completion
timestamp ascending. -/
def specEntryBefore (e f : LeaderboardEntry) : Prop :=
  f.score < e.score ∨
    (e.score = f.score ∧
      (e.timeTaken < f.timeTaken ∨
        (e.timeTaken = f.timeTaken ∧ e.completedAt ≤ f.completedAt)))

instance : DecidableRel specEntryBefore := fun e f => by
  unfold specEntryBefore
  infer_instance

/-- The ordering on entries actually enforced by the code's sort keys. -/
def entryBefore (e f : LeaderboardEntry) : Prop :=
  f.score < e.score ∨ (e.score = f.score ∧ e.timeTaken ≤ f.timeTaken)

/-- The `$or` filter of `GetMyRank`'s better-attempt count: `a` outranks `b`
when `a.total_score > b.total_score`, or the scores are equal and
`a.time_taken < b.time_taken`. -/
def outranks (a b : QuizAttempt) : Bool :=
  decide (b.totalScore < a.totalScore) ||
    (decide (a.totalScore = b.totalScore) && decide (a.timeTaken < b.timeTaken))

/-- The student's own completed attempts for the quiz
(`{quiz_id, student_id, completed_at: {$exists: true}}`). -/
def ownCompleted (store : List QuizAttempt) (qid sid : ℕ) : List QuizAttempt :=
  store.filter (fun a => a.quizId == qid && a.studentId == sid && a.completedAt.isSome)

/-- `GetMyRank`'s first query: the student's best completed attempt for the
quiz — `FindOne` under the (score desc, time asc) sort, i.e. the head of the
stably sorted list of the student's completed attempts. -/
def bestAttempt (store : List QuizAttempt) (qid sid : ℕ) : Option QuizAttempt :=
  (List.insertionSort lbBefore (ownCompleted store qid sid)).head?

/-- `GetMyRank`'s `CountDocuments` of strictly-better completed attempts. -/
def countOutranking (store : List QuizAttempt) (qid : ℕ) (b : QuizAttempt) : ℕ :=
  store.countP (fun a => a.quizId == qid && a.completedAt.isSome && outranks a b)

/-- `GetMyRank` (`handlers/leaderboard_handler.go`): `none` when the student
has no completed attempt for the quiz, else one plus the number of completed
attempts (of any student) that outrank the student's best attempt. -/
def getMyRank (store : List QuizAttempt) (qid sid : ℕ) : Option ℕ :=
  match bestAttempt store qid sid with
  | none => none
  | some b => some (countOutranking store qid b + 1)

/-! ### Global leaderboard (`GetGlobalLeaderboard`)

The aggregation pipeline computes, per student, the average over their
completed attempts of `($total_score / $max_score) * 100`.  MongoDB's
`$divide` raises an error on a zero divisor, modelled as `none`. -/

/-- `$divide`, which errors (`none`) on a zero divisor. -/
def mongoDiv (x y : ℚ) : Option ℚ :=
  if y = 0 then none else some (x / y)

/-- The pipeline's per-attempt percentage
`{$multiply: [{$divide: ["$total_score", "$max_score"]}, 100]}`. -/
def globalPct (a : QuizAttempt) : Option ℚ :=
  (mongoDiv a.totalScore a.maxScore).map (fun x => x * 100)

/-- Addition of two possibly-failed values, failing if either failed. -/
def optAdd (x y : Option ℚ) : Option ℚ :=
  match x, y with
  | some v, some s => some (v + s)
  | _, _ => none

/-- Sum of the per-attempt values, erroring if any one errors. -/
def optSum : List (Option ℚ) → Option ℚ
  | [] => some 0
  | x :: xs => optAdd x (optSum xs)

/-- The `$group`/`$avg` of the pipeline restricted to one student: the average
percentage over that student's completed attempts, `none` when the student has
no completed attempt (no group) or when any attempt's `$divide` errors. -/
def globalAvg (store : List QuizAttempt) (sid : ℕ) : Option ℚ :=
  let mine := store.filter (fun a => a.completedAt.isSome && a.studentId == sid)
  if mine.length = 0 then none
  else (optSum (mine.map globalPct)).map (fun s => s / (mine.length : ℚ))

/-! ### Reachable stores and invariants -/

/-- MongoDB's unique `_id` index: the store's ids are pairwise distinct. -/
def idsNodup (store : List QuizAttempt) : Prop :=
  (store.map (fun a => a.id)).Nodup

/-- Sum of the recorded answers' earned points. -/
def answersSum (l : List Answer) : ℚ :=
  (l.map (fun ans => ans.pointsEarned)).sum

/-- Whether the attempt already holds an answer for question `q`. -/
def answeredIn (a : QuizAttempt) (q : Question) : Bool :=
  a.answers.any (fun ans => ans.questionId == q.id)

/-- Total base points of the quiz's questions not yet answered in `a`. -/
def unansweredSum (quiz : Quiz) (a : QuizAttempt) : ℚ :=
  sumPoints (quiz.questions.filter (fun q => !(answeredIn a q)))

/-- Per-attempt invariant: the attempt's quiz exists, is approved, its course
was completed by the student, the max score is the snapshot sum of question
points, the total score plus the points still available does not exceed the
max score, and the total score is the sum of the recorded answers' points. -/
def AttemptInv (quizzes : ℕ → Option Quiz) (cc : ℕ → String → Option Bool)
    (a : QuizAttempt) : Prop :=
  ∃ quiz, quizzes a.quizId = some quiz ∧
    quiz.status = QuizStatus.approved ∧
    cc a.studentId quiz.courseId = some true ∧
    a.maxScore = sumPoints quiz.questions ∧
    a.totalScore + unansweredSum quiz a ≤ a.maxScore ∧
    a.totalScore = answersSum a.answers

/-- Store invariant: distinct ids, every attempt satisfies `AttemptInv`, and
each (student, quiz) pair has at most one in-progress attempt. -/
def StoreInv (quizzes : ℕ → Option Quiz) (cc : ℕ → String → Option Bool)
    (store : List QuizAttempt) : Prop :=
  idsNodup store ∧
  (∀ a ∈ store, AttemptInv quizzes cc a) ∧
  ∀ sid qid : ℕ, store.countP (inProgressFor qid sid) ≤ 1

/-- Stores reachable from the empty store by any sequence of `startAttempt`,
`submitAnswer` and `completeAttempt` calls (successful or failed), against a
fixed quiz store and a fixed external course-completion predicate. -/
inductive Reach (quizzes : ℕ → Option Quiz) (cc : ℕ → String → Option Bool) :
    List QuizAttempt → Prop
  | init : Reach quizzes cc []
  | start {store store' : List QuizAttempt} {sid qid newId : ℕ} {now : ℚ}
      {r : HResult QuizAttempt} (h : Reach quizzes cc store)
      (hs : startAttempt quizzes cc store sid qid now newId = (store', r)) :
      Reach quizzes cc store'
  | submit {store store' : List QuizAttempt} {sid aid qid : ℕ} {submitted : String}
      {t : ℤ} {now : ℚ} {r : HResult (Bool × ℚ)} (h : Reach quizzes cc store)
      (hs : submitAnswer quizzes store sid aid qid submitted t now = (store', r)) :
      Reach quizzes cc store'
  | complete {store store' : List QuizAttempt} {sid aid : ℕ} {now : ℚ}
      {r : HResult Unit} (h : Reach quizzes cc store)
      (hs : completeAttempt store sid aid now = (store', r)) :
      Reach quizzes cc store'

theorem startAttempt_cases {quizzes : ℕ → Option Quiz} {cc : ℕ → String → Option Bool}
    {store : List QuizAttempt} {sid qid : ℕ} {now : ℚ} {newId : ℕ}
    {store' : List QuizAttempt} {r : HResult QuizAttempt}
    (h : startAttempt quizzes cc store sid qid now newId = (store', r)) :
    (store' = store ∧ ∃ e, r = HResult.error e) ∨
    ∃ quiz : Quiz, quizzes qid = some quiz ∧
      quiz.status = QuizStatus.approved ∧
      cc sid quiz.courseId = some true ∧
      store.find? (inProgressFor qid sid) = none ∧
      store.any (fun a => a.id == newId) = false ∧
      store' = store ++
        [{ id := newId, quizId := qid, studentId := sid, answers := [],
           totalScore := 0, maxScore := sumPoints quiz.questions,
           startedAt := now, completedAt := none, timeTaken := 0 }] ∧
      r = HResult.ok
        { id := newId, quizId := qid, studentId := sid, answers := [],
          totalScore := 0, maxScore := sumPoints quiz.questions,
          startedAt := now, completedAt := none, timeTaken := 0 } := by
  unfold startAttempt at h
  split at h
  · injection h with h1 h2
    exact Or.inl ⟨h1.symm, _, h2.symm⟩
  case h_2 quiz hq =>
    split at h
    · injection h with h1 h2
      exact Or.inl ⟨h1.symm, _, h2.symm⟩
    case isFalse hst =>
      split at h
      · injection h with h1 h2
        exact Or.inl ⟨h1.symm, _, h2.symm⟩
      · injection h with h1 h2
        exact Or.inl ⟨h1.symm, _, h2.symm⟩
      case h_3 hcc =>
        split at h
        · injection h with h1 h2
          exact Or.inl ⟨h1.symm, _, h2.symm⟩
        case h_2 hfind =>
          split at h
          · injection h with h1 h2
            exact Or.inl ⟨h1.symm, _, h2.symm⟩
          case isFalse hany =>
            injection h with h1 h2
            exact Or.inr ⟨quiz, hq, not_not.mp hst, hcc, hfind,
              Bool.not_eq_true _ ▸ eq_false_of_ne_true hany, h1.symm, h2.symm⟩

theorem submitAnswer_cases {quizzes : ℕ → Option Quiz} {store : List QuizAttempt}
    {sid aid qid : ℕ} {submitted : String} {t : ℤ} {now : ℚ}
    {store' : List QuizAttempt} {r : HResult (Bool × ℚ)}
    (h : submitAnswer quizzes store sid aid qid submitted t now = (store', r)) :
    (store' = store ∧ ∃ e, r = HResult.error e) ∨
    ∃ (attempt : QuizAttempt) (quiz : Quiz) (question : Question),
      store.find? (fun a => a.id == aid && a.studentId == sid) = some attempt ∧
      attempt.completedAt = none ∧
      quizzes attempt.quizId = some quiz ∧
      quiz.questions.find? (fun q => q.id == qid) = some question ∧
      attempt.answers.any (fun ans => ans.questionId == qid) = false ∧
      t ≤ question.timeLimit ∧
      r = HResult.ok (goIsCorrect submitted question.correctAnswer,
        CalculateScore question.points t (goIsCorrect submitted question.correctAnswer)) ∧
      store' = updateFirst (fun a => a.id == aid)
        (fun a =>
          { a with
            answers := a.answers ++
              [{ questionId := qid, studentAnswer := submitted,
                 isCorrect := goIsCorrect submitted question.correctAnswer,
                 timeToAnswer := t,
                 pointsEarned := CalculateScore question.points t
                   (goIsCorrect submitted question.correctAnswer),
                 answeredAt := now }],
            totalScore := a.totalScore + CalculateScore question.points t
              (goIsCorrect submitted question.correctAnswer) }) store := by
  unfold submitAnswer at h
  split at h
  · injection h with h1 h2
    exact Or.inl ⟨h1.symm, _, h2.symm⟩
  case h_2 attempt hfa =>
    split at h
    · injection h with h1 h2
      exact Or.inl ⟨h1.symm, _, h2.symm⟩
    case isFalse hco =>
      split at h
      · injection h with h1 h2
        exact Or.inl ⟨h1.symm, _, h2.symm⟩
      case h_2 quiz hq =>
        split at h
        · injection h with h1 h2
          exact Or.inl ⟨h1.symm, _, h2.symm⟩
        case h_2 question hfq =>
          split at h
          · injection h with h1 h2
            exact Or.inl ⟨h1.symm, _, h2.symm⟩
          case isFalse hdup =>
            split at h
            · injection h with h1 h2
              exact Or.inl ⟨h1.symm, _, h2.symm⟩
            case isFalse htl =>
              injection h with h1 h2
              refine Or.inr ⟨attempt, quiz, question, hfa, ?_, hq, hfq, ?_, ?_, h2.symm, h1.symm⟩
              · exact Option.not_isSome_iff_eq_none.mp hco
              · exact eq_false_of_ne_true hdup
              · exact le_of_not_lt htl

theorem completeAttempt_cases {store : List QuizAttempt} {sid aid : ℕ} {now : ℚ}
    {store' : List QuizAttempt} {r : HResult Unit}
    (h : completeAttempt store sid aid now = (store', r)) :
    (store' = store ∧ ∃ e, r = HResult.error e) ∨
    ∃ attempt : QuizAttempt,
      store.find? (fun a => a.id == aid && a.studentId == sid) = some attempt ∧
      attempt.completedAt = none ∧
      r = HResult.ok () ∧
      store' = updateFirst (fun a => a.id == aid)
        (fun a => { a with completedAt := some now,
                           timeTaken := ratTrunc (now - attempt.startedAt) }) store := by
  unfold completeAttempt at h
  split at h
  · injection h with h1 h2
    exact Or.inl ⟨h1.symm, _, h2.symm⟩
  case h_2 attempt hfa =>
    split at h
    · injection h with h1 h2
      exact Or.inl ⟨h1.symm, _, h2.symm⟩
    case isFalse hco =>
      injection h with h1 h2
      exact Or.inr ⟨attempt, hfa, Option.not_isSome_iff_eq_none.mp hco, h2.symm, h1.symm⟩

theorem updateFirst_decomp {store : List QuizAttempt} {aid sid : ℕ} {a : QuizAttempt}
    (hn : idsNodup store)
    (ha : store.find? (fun x => x.id == aid && x.studentId == sid) = some a)
    (f : QuizAttempt → QuizAttempt) :
    ∃ l₁ l₂, store = l₁ ++ a :: l₂ ∧
      updateFirst (fun x => x.id == aid) f store = l₁ ++ f a :: l₂ ∧
      a.id = aid ∧ a.studentId = sid := by
  induction store with
  | nil => simp at ha
  | cons x xs ih =>
    rw [idsNodup, List.map_cons, List.nodup_cons] at hn
    by_cases hx : (x.id == aid && x.studentId == sid) = true
    · simp only [List.find?, hx] at ha
      injection ha with ha
      subst ha
      simp only [Bool.and_eq_true, beq_iff_eq] at hx
      refine ⟨[], xs, rfl, ?_, hx.1, hx.2⟩
      unfold updateFirst
      rw [if_pos (by simp [hx.1])]
      rfl
    · simp only [List.find?, eq_false_of_ne_true hx] at ha
      have hmem := List.mem_of_find?_eq_some ha
      have hpa := List.find?_some ha
      simp only [Bool.and_eq_true, beq_iff_eq] at hpa
      have hxid : (x.id == aid) = false := by
        by_contra hcon
        have hxid' : x.id = aid := by
          have := Bool.not_eq_false (x.id == aid) ▸ hcon
          exact beq_iff_eq.mp (Bool.of_not_eq_false hcon)
        exact hn.1 (hxid' ▸ hpa.1 ▸ List.mem_map_of_mem (fun a => a.id) hmem)
      obtain ⟨l₁, l₂, hsplit, hupd, hid, hsid⟩ := ih hn.2 ha
      refine ⟨x :: l₁, l₂, by rw [hsplit]; rfl, ?_, hid, hsid⟩
      unfold updateFirst
      rw [if_neg (by simp [hxid]), hupd]
      rfl

theorem sumPoints_nonneg {qs : List Question} (h : ∀ q ∈ qs, 0 ≤ q.points) :
    0 ≤ sumPoints qs := by
  apply List.sum_nonneg
  intro x hx
  obtain ⟨q, hq, rfl⟩ := List.mem_map.mp hx
  exact_mod_cast h q hq

theorem sumPoints_filter_add (P : Question → Bool) (l : List Question) :
    sumPoints (l.filter P) + sumPoints (l.filter (fun q => !(P q))) = sumPoints l := by
  induction l with
  | nil => simp [sumPoints]
  | cons q qs ih =>
    simp only [sumPoints] at ih ⊢
    cases hq : P q
    · rw [List.filter_cons_of_neg (by simp [hq]), List.filter_cons_of_pos (by simp [hq])]
      simp only [List.map_cons, List.sum_cons]
      linarith
    · rw [List.filter_cons_of_pos (by simp [hq]), List.filter_cons_of_neg (by simp [hq])]
      simp only [List.map_cons, List.sum_cons]
      linarith

theorem sumPoints_le_of_mem {l : List Question} {q : Question} (hq : q ∈ l)
    (h : ∀ r ∈ l, 0 ≤ r.points) : (q.points : ℚ) ≤ sumPoints l := by
  induction l with
  | nil => simp at hq
  | cons x xs ih =>
    simp only [sumPoints, List.map_cons, List.sum_cons]
    rcases List.mem_cons.mp hq with rfl | hq'
    · have : 0 ≤ sumPoints xs := sumPoints_nonneg (fun r hr => h r (List.mem_cons_of_mem _ hr))
      simp only [sumPoints] at this
      linarith
    · have hx : (0 : ℚ) ≤ (x.points : ℚ) := by exact_mod_cast h x (List.mem_cons_self x xs)
      have := ih hq' (fun r hr => h r (List.mem_cons_of_mem _ hr))
      simp only [sumPoints] at this
      linarith

/-- The creation-time validation of quizzes (`binding:"required,min=1"` on
question points in `CreateQuiz`): every question is worth at least one point. -/
def PointsPositive (quizzes : ℕ → Option Quiz) : Prop :=
  ∀ qid quiz, quizzes qid = some quiz → ∀ q ∈ quiz.questions, 0 < q.points

theorem countP_eq_zero_of_find?_eq_none {p : QuizAttempt → Bool} {l : List QuizAttempt}
    (h : l.find? p = none) : l.countP p = 0 := by
  rw [List.countP_eq_zero]
  intro a ha
  simpa using List.find?_eq_none.mp h a ha

theorem startAttempt_preserves {quizzes : ℕ → Option Quiz} {cc : ℕ → String → Option Bool}
    {store : List QuizAttempt} {sid qid : ℕ} {now : ℚ} {newId : ℕ}
    {store' : List QuizAttempt} {r : HResult QuizAttempt}
    (hinv : StoreInv quizzes cc store)
    (h : startAttempt quizzes cc store sid qid now newId = (store', r)) :
    StoreInv quizzes cc store' := by
  rcases startAttempt_cases h with ⟨rfl, -⟩ | ⟨quiz, hq, hst, hcc, hfind, hany, rfl, -⟩
  · exact hinv
  obtain ⟨hA, hB, hC⟩ := hinv
  have hnotin : newId ∉ store.map (fun a => a.id) := by
    intro hmem
    obtain ⟨a, hamem, haid⟩ := List.mem_map.mp hmem
    have := List.any_eq_false.mp hany a hamem
    simp [haid] at this
  refine ⟨?_, ?_, ?_⟩
  · rw [idsNodup, List.map_append]
    simp only [List.map_cons, List.map_nil]
    rw [List.nodup_append]
    refine ⟨hA, List.nodup_singleton _, ?_⟩
    intro x hx hx2
    rw [List.mem_singleton] at hx2
    subst hx2
    exact hnotin hx
  · intro a ha
    rcases List.mem_append.mp ha with ha | ha
    · exact hB a ha
    · rw [List.mem_singleton] at ha
      subst ha
      refine ⟨quiz, hq, hst, hcc, rfl, ?_, by simp [answersSum]⟩
      simp [unansweredSum, answeredIn]
  · intro s' q'
    rw [List.countP_append]
    by_cases hmatch : q' = qid ∧ s' = sid
    · obtain ⟨rfl, rfl⟩ := hmatch
      have h0 : store.countP (inProgressFor q' s') = 0 := countP_eq_zero_of_find?_eq_none hfind
      rw [h0]
      simp [inProgressFor, List.countP_cons]
    · have hsingle : List.countP (inProgressFor q' s')
          [({ id := newId, quizId := qid, studentId := sid, answers := [],
              totalScore := 0, maxScore := sumPoints quiz.questions,
              startedAt := now, completedAt := none, timeTaken := 0 } : QuizAttempt)] = 0 := by
        simp only [List.countP_cons, List.countP_nil, inProgressFor]
        simp only [not_and] at hmatch
        by_cases hq' : q' = qid
        · have hs' := hmatch hq'
          simp [Ne.symm hs']
        · simp [Ne.symm hq']
      rw [hsingle]
      simpa using hC s' q'

theorem submitAnswer_preserves {quizzes : ℕ → Option Quiz} {cc : ℕ → String → Option Bool}
    {store : List QuizAttempt} {sid aid qid : ℕ} {submitted : String} {t : ℤ} {now : ℚ}
    {store' : List QuizAttempt} {r : HResult (Bool × ℚ)}
    (hpts : PointsPositive quizzes)
    (hinv : StoreInv quizzes cc store)
    (h : submitAnswer quizzes store sid aid qid submitted t now = (store', r)) :
    StoreInv quizzes cc store' := by
  rcases submitAnswer_cases h with ⟨rfl, -⟩ |
    ⟨attempt, quiz, question, hfa, hco, hq, hfq, hdup, htl, -, rfl⟩
  · exact hinv
  obtain ⟨hA, hB, hC⟩ := hinv
  obtain ⟨l₁, l₂, hsplit, hupd, hid, hsid⟩ := updateFirst_decomp hA hfa _
  rw [hupd]
  have hamem : attempt ∈ store := List.mem_of_find?_eq_some hfa
  obtain ⟨quiz0, hq0, hst0, hcc0, hmax0, hineq0, hsum0⟩ := hB attempt hamem
  have hquiz : quiz0 = quiz := by
    rw [hq0] at hq
    injection hq
  subst hquiz
  have hqidq : question.id = qid := by
    have := List.find?_some hfq
    simpa using this
  have hqmem : question ∈ quiz0.questions := List.mem_of_find?_eq_some hfq
  have hqpos : 0 < question.points := hpts _ quiz0 hq question hqmem
  refine ⟨?_, ?_, ?_⟩
  · have hids : (l₁ ++
        ({ attempt with
            answers := attempt.answers ++
              [{ questionId := qid, studentAnswer := submitted,
                 isCorrect := goIsCorrect submitted question.correctAnswer,
                 timeToAnswer := t,
                 pointsEarned := CalculateScore question.points t
                   (goIsCorrect submitted question.correctAnswer),
                 answeredAt := now }],
            totalScore := attempt.totalScore + CalculateScore question.points t
              (goIsCorrect submitted question.correctAnswer) } : QuizAttempt) :: l₂).map
          (fun a => a.id) = store.map (fun a => a.id) := by
      rw [hsplit]
      simp
    rw [idsNodup, hids]
    exact hA
  · intro x hx
    rcases List.mem_append.mp hx with hx1 | hx2
    · exact hB x (by rw [hsplit]; exact List.mem_append_left _ hx1)
    rcases List.mem_cons.mp hx2 with rfl | hx3
    swap
    · exact hB x (by rw [hsplit]; exact List.mem_append_right _ (List.mem_cons_of_mem _ hx3))
    refine ⟨quiz0, hq, hst0, hcc0, hmax0, ?_, ?_⟩
    · -- score bound for the updated attempt
      have hansw : ∀ q : Question,
          answeredIn { attempt with
            answers := attempt.answers ++
              [{ questionId := qid, studentAnswer := submitted,
                 isCorrect := goIsCorrect submitted question.correctAnswer,
                 timeToAnswer := t,
                 pointsEarned := CalculateScore question.points t
                   (goIsCorrect submitted question.correctAnswer),
                 answeredAt := now }],
            totalScore := attempt.totalScore + CalculateScore question.points t
              (goIsCorrect submitted question.correctAnswer) } q
          = (answeredIn attempt q || (qid == q.id)) := by
        intro q
        simp [answeredIn, List.any_append]
      have hfilter : quiz0.questions.filter (fun q =>
            !(answeredIn { attempt with
              answers := attempt.answers ++
                [{ questionId := qid, studentAnswer := submitted,
                   isCorrect := goIsCorrect submitted question.correctAnswer,
                   timeToAnswer := t,
                   pointsEarned := CalculateScore question.points t
                     (goIsCorrect submitted question.correctAnswer),
                   answeredAt := now }],
              totalScore := attempt.totalScore + CalculateScore question.points t
                (goIsCorrect submitted question.correctAnswer) } q)) =
          (quiz0.questions.filter (fun q => !(answeredIn attempt q))).filter
            (fun q => !(qid == q.id)) := by
        rw [List.filter_filter]
        apply List.filter_congr
        intro q hqm
        rw [hansw q]
        cases hb1 : answeredIn attempt q <;> cases hb2 : (qid == q.id) <;> rfl
      show _ + unansweredSum quiz0 _ ≤ _
      unfold unansweredSum
      rw [hfilter]
      have hsplitsum := sumPoints_filter_add (fun q => qid == q.id)
        (quiz0.questions.filter (fun q => !(answeredIn attempt q)))
      have hqF : question ∈ (quiz0.questions.filter
          (fun q => !(answeredIn attempt q))).filter (fun q => qid == q.id) := by
        refine List.mem_filter.mpr ⟨List.mem_filter.mpr ⟨hqmem, ?_⟩, by simp [hqidq]⟩
        simp only [answeredIn, hqidq]
        simpa using hdup
      have hnonneg : ∀ r ∈ (quiz0.questions.filter
          (fun q => !(answeredIn attempt q))).filter (fun q => qid == q.id), 0 ≤ r.points :=
        fun r hr => le_of_lt
          (hpts _ quiz0 hq r (List.mem_of_mem_filter (List.mem_of_mem_filter hr)))
      have hge := sumPoints_le_of_mem hqF hnonneg
      have hple : CalculateScore question.points t
          (goIsCorrect submitted question.correctAnswer) ≤ (question.points : ℚ) :=
        calculateScore_le _ _ _ (le_of_lt hqpos)
      unfold unansweredSum at hineq0
      show attempt.totalScore + CalculateScore question.points t
          (goIsCorrect submitted question.correctAnswer) + _ ≤ attempt.maxScore
      linarith
    · -- total score is still the sum of the answers' points
      show attempt.totalScore + CalculateScore question.points t
          (goIsCorrect submitted question.correctAnswer) = answersSum _
      simp only [answersSum, List.map_append, List.sum_append, List.map_cons,
        List.map_nil, List.sum_cons, List.sum_nil]
      rw [answersSum] at hsum0
      rw [hsum0]
      ring
  · intro s' q'
    have hpred : inProgressFor q' s'
        ({ attempt with
            answers := attempt.answers ++
              [{ questionId := qid, studentAnswer := submitted,
                 isCorrect := goIsCorrect submitted question.correctAnswer,
                 timeToAnswer := t,
                 pointsEarned := CalculateScore question.points t
                   (goIsCorrect submitted question.correctAnswer),
                 answeredAt := now }],
            totalScore := attempt.totalScore + CalculateScore question.points t
              (goIsCorrect submitted question.correctAnswer) } : QuizAttempt)
        = inProgressFor q' s' attempt := by
      simp [inProgressFor]
    have := hC s' q'
    rw [hsplit] at this
    simp only [List.countP_append, List.countP_cons, hpred] at this ⊢
    exact this

theorem completeAttempt_preserves {quizzes : ℕ → Option Quiz} {cc : ℕ → String → Option Bool}
    {store : List QuizAttempt} {sid aid : ℕ} {now : ℚ}
    {store' : List QuizAttempt} {r : HResult Unit}
    (hinv : StoreInv quizzes cc store)
    (h : completeAttempt store sid aid now = (store', r)) :
    StoreInv quizzes cc store' := by
  rcases completeAttempt_cases h with ⟨rfl, -⟩ | ⟨attempt, hfa, hco, -, rfl⟩
  · exact hinv
  obtain ⟨hA, hB, hC⟩ := hinv
  obtain ⟨l₁, l₂, hsplit, hupd, hid, hsid⟩ := updateFirst_decomp hA hfa _
  rw [hupd]
  have hamem : attempt ∈ store := List.mem_of_find?_eq_some hfa
  obtain ⟨quiz0, hq0, hst0, hcc0, hmax0, hineq0, hsum0⟩ := hB attempt hamem
  refine ⟨?_, ?_, ?_⟩
  · have hids : (l₁ ++
        ({ attempt with
            completedAt := some now,
            timeTaken := ratTrunc (now - attempt.startedAt) } : QuizAttempt) :: l₂).map
          (fun a => a.id) = store.map (fun a => a.id) := by
      rw [hsplit]
      simp
    rw [idsNodup, hids]
    exact hA
  · intro x hx
    rcases List.mem_append.mp hx with hx1 | hx2
    · exact hB x (by rw [hsplit]; exact List.mem_append_left _ hx1)
    rcases List.mem_cons.mp hx2 with rfl | hx3
    swap
    · exact hB x (by rw [hsplit]; exact List.mem_append_right _ (List.mem_cons_of_mem _ hx3))
    refine ⟨quiz0, hq0, hst0, hcc0, hmax0, ?_, hsum0⟩
    have hun : unansweredSum quiz0
        ({ attempt with
            completedAt := some now,
            timeTaken := ratTrunc (now - attempt.startedAt) } : QuizAttempt)
        = unansweredSum quiz0 attempt := by
      unfold unansweredSum
      congr 1
    exact hun ▸ hineq0
  · intro s' q'
    have hpred : inProgressFor q' s'
        ({ attempt with
            completedAt := some now,
            timeTaken := ratTrunc (now - attempt.startedAt) } : QuizAttempt) = false := by
      simp [inProgressFor]
    have := hC s' q'
    rw [hsplit] at this
    simp only [List.countP_append, List.countP_cons, hpred, Bool.false_eq_true,
      if_false] at this ⊢
    omega

theorem reach_inv {quizzes : ℕ → Option Quiz} {cc : ℕ → String → Option Bool}
    {store : List QuizAttempt} (hpts : PointsPositive quizzes)
    (h : Reach quizzes cc store) : StoreInv quizzes cc store := by
  induction h with
  | init =>
    refine ⟨by simp [idsNodup], by simp, ?_⟩
    intro s q
    simp
  | start _ hs ih => exact startAttempt_preserves ih hs
  | submit _ hs ih => exact submitAnswer_preserves hpts ih hs
  | complete _ hs ih => exact completeAttempt_preserves ih hs


/-! ### Leaderboard lemmas -/

theorem buildEntries_nil (users : ℕ → Option User) (k : ℕ) :
    buildEntries users [] k = [] := rfl

theorem buildEntries_cons_none (users : ℕ → Option User) {a : QuizAttempt}
    (rest : List QuizAttempt) (k : ℕ) (hu : users a.studentId = none) :
    buildEntries users (a :: rest) k = buildEntries users rest k := by
  simp only [buildEntries, hu]

theorem buildEntries_cons_some (users : ℕ → Option User) {a : QuizAttempt} {u : User}
    (rest : List QuizAttempt) (k : ℕ) (hu : users a.studentId = some u) :
    buildEntries users (a :: rest) k =
      { rank := k, studentId := a.studentId,
        studentName := u.firstName ++ " " ++ u.lastName,
        score := a.totalScore, maxScore := a.maxScore,
        percentage := quizPercentage a,
        timeTaken := a.timeTaken,
        completedAt := a.completedAt.getD 0 } :: buildEntries users rest (k + 1) := by
  simp only [buildEntries, hu]

theorem buildEntries_rank_map (users : ℕ → Option User) :
    ∀ (l : List QuizAttempt) (k : ℕ),
      (buildEntries users l k).map (fun e => e.rank) =
        List.range' k (buildEntries users l k).length := by
  intro l
  induction l with
  | nil =>
    intro k
    simp [buildEntries_nil]
  | cons a rest ih =>
    intro k
    rcases hu : users a.studentId with _ | u
    · rw [buildEntries_cons_none users rest k hu]
      exact ih k
    · rw [buildEntries_cons_some users rest k hu]
      simp only [List.map_cons, List.length_cons, ih (k + 1)]
      rw [List.range'_succ]

theorem mem_buildEntries (users : ℕ → Option User) :
    ∀ (l : List QuizAttempt) (k : ℕ) (e : LeaderboardEntry), e ∈ buildEntries users l k →
      ∃ a ∈ l, e.score = a.totalScore ∧ e.timeTaken = a.timeTaken := by
  intro l
  induction l with
  | nil =>
    intro k e he
    simp [buildEntries_nil] at he
  | cons a rest ih =>
    intro k e he
    rcases hu : users a.studentId with _ | u
    · rw [buildEntries_cons_none users rest k hu] at he
      obtain ⟨b, hb, h1, h2⟩ := ih k e he
      exact ⟨b, List.mem_cons_of_mem _ hb, h1, h2⟩
    · rw [buildEntries_cons_some users rest k hu] at he
      rcases List.mem_cons.mp he with rfl | he2
      · exact ⟨a, List.mem_cons_self _ _, rfl, rfl⟩
      · obtain ⟨b, hb, h1, h2⟩ := ih (k + 1) e he2
        exact ⟨b, List.mem_cons_of_mem _ hb, h1, h2⟩

theorem buildEntries_pairwise (users : ℕ → Option User) :
    ∀ (l : List QuizAttempt) (k : ℕ), List.Pairwise lbBefore l →
      List.Pairwise entryBefore (buildEntries users l k) := by
  intro l
  induction l with
  | nil =>
    intro k _
    simp [buildEntries_nil]
  | cons a rest ih =>
    intro k h
    rw [List.pairwise_cons] at h
    rcases hu : users a.studentId with _ | u
    · rw [buildEntries_cons_none users rest k hu]
      exact ih k h.2
    · rw [buildEntries_cons_some users rest k hu, List.pairwise_cons]
      refine ⟨?_, ih (k + 1) h.2⟩
      intro e he
      obtain ⟨b, hb, hes, het⟩ := mem_buildEntries users rest (k + 1) e he
      have hab := h.1 b hb
      show e.score < a.totalScore ∨ (a.totalScore = e.score ∧ a.timeTaken ≤ e.timeTaken)
      rw [hes, het]
      exact hab

theorem outranks_self (b : QuizAttempt) : outranks b b = false := by
  simp [outranks]

theorem outranks_false_of_lbBefore {b a : QuizAttempt} (h : lbBefore b a) :
    outranks a b = false := by
  unfold outranks
  rcases h with h | ⟨he, ht⟩
  · have h2 : a.totalScore ≠ b.totalScore := ne_of_lt h
    have h1 : ¬ b.totalScore < a.totalScore := lt_asymm h
    simp [h1, h2]
  · simp [he, not_lt.mpr ht]

theorem outranks_true_of_lbBefore_ne {x b : QuizAttempt} (h : lbBefore x b)
    (hne : ¬(x.totalScore = b.totalScore ∧ x.timeTaken = b.timeTaken)) :
    outranks x b = true := by
  unfold outranks
  rcases h with h | ⟨he, ht⟩
  · simp [h]
  · rcases lt_or_eq_of_le ht with hlt | heq
    · simp [he, hlt]
    · exact absurd ⟨he, heq⟩ hne

theorem bestAttempt_le {store : List QuizAttempt} {qid sid : ℕ} {b : QuizAttempt}
    (hb : bestAttempt store qid sid = some b) :
    b ∈ ownCompleted store qid sid ∧
      ∀ a ∈ ownCompleted store qid sid, lbBefore b a := by
  unfold bestAttempt at hb
  have hsorted : List.Sorted lbBefore
      (List.insertionSort lbBefore (ownCompleted store qid sid)) :=
    List.sorted_insertionSort lbBefore _
  have hperm : List.Perm (List.insertionSort lbBefore (ownCompleted store qid sid))
      (ownCompleted store qid sid) :=
    List.perm_insertionSort lbBefore _
  cases hl : List.insertionSort lbBefore (ownCompleted store qid sid) with
  | nil =>
    rw [hl] at hb
    simp at hb
  | cons x xs =>
    rw [hl] at hb hsorted hperm
    simp only [List.head?_cons, Option.some.injEq] at hb
    subst hb
    refine ⟨hperm.mem_iff.mp (List.mem_cons_self x xs), ?_⟩
    intro a ha
    rcases List.mem_cons.mp (hperm.mem_iff.mpr ha) with rfl | hmem
    · exact Or.inr ⟨rfl, le_refl _⟩
    · exact (List.pairwise_cons.mp hsorted).1 a hmem

theorem countOutranking_eq_countP_completedFor (store : List QuizAttempt) (qid : ℕ)
    (b : QuizAttempt) :
    countOutranking store qid b = (completedFor store qid).countP (fun a => outranks a b) := by
  unfold countOutranking completedFor
  rw [List.countP_filter]
  apply List.countP_congr
  intro a _
  cases h1 : (a.quizId == qid) <;> cases h2 : a.completedAt.isSome <;>
    cases h3 : outranks a b <;> rfl

theorem sorted_index_eq_countOutranking
    {store : List QuizAttempt} {qid : ℕ} {b : QuizAttempt} {i : ℕ}
    (hkey : ∀ x ∈ completedFor store qid,
      x.totalScore = b.totalScore → x.timeTaken = b.timeTaken → x = b)
    (hcount : (completedFor store qid).count b ≤ 1)
    (h : i < (sortedCompleted store qid).length)
    (hget : (sortedCompleted store qid).get ⟨i, h⟩ = b) :
    i = countOutranking store qid b := by
  have hperm : List.Perm (sortedCompleted store qid) (completedFor store qid) :=
    List.perm_insertionSort lbBefore _
  have hpair : List.Pairwise lbBefore (sortedCompleted store qid) :=
    List.sorted_insertionSort lbBefore _
  have hdecomp : sortedCompleted store qid =
      (sortedCompleted store qid).take i ++ b :: (sortedCompleted store qid).drop (i + 1) := by
    rw [← hget]
    conv_lhs => rw [← List.take_append_drop i (sortedCompleted store qid)]
    rw [List.drop_eq_getElem_cons h]
    simp
  have hpair2 := hdecomp ▸ hpair
  rw [List.pairwise_append] at hpair2
  obtain ⟨hpT, hpbD, hcross⟩ := hpair2
  have hbefore : ∀ x ∈ (sortedCompleted store qid).take i, lbBefore x b :=
    fun x hx => hcross x hx b (List.mem_cons_self _ _)
  have hafter : ∀ y ∈ (sortedCompleted store qid).drop (i + 1), lbBefore b y :=
    fun y hy => (List.pairwise_cons.mp hpbD).1 y hy
  rw [countOutranking_eq_countP_completedFor]
  have hcntS : (completedFor store qid).countP (fun a => outranks a b)
      = (sortedCompleted store qid).countP (fun a => outranks a b) :=
    (hperm.countP_eq _).symm
  rw [hcntS]
  conv_rhs => rw [hdecomp]
  rw [List.countP_append, List.countP_cons]
  have h1 : ((sortedCompleted store qid).take i).countP (fun a => outranks a b) =
      ((sortedCompleted store qid).take i).length := by
    rw [List.countP_eq_length]
    intro x hx
    refine outranks_true_of_lbBefore_ne (hbefore x hx) ?_
    rintro ⟨hxs, hxt⟩
    have hxmem : x ∈ completedFor store qid :=
      hperm.mem_iff.mp (List.take_subset i _ hx)
    have hxb : x = b := hkey x hxmem hxs hxt
    have hc1 : (completedFor store qid).count b =
        (sortedCompleted store qid).count b := (hperm.count_eq b).symm
    rw [hdecomp, List.count_append, List.count_cons_self] at hc1
    have hTpos : 0 < ((sortedCompleted store qid).take i).count b := by
      rw [List.count_pos_iff]
      exact hxb ▸ hx
    omega
  have h3 : ((sortedCompleted store qid).drop (i + 1)).countP (fun a => outranks a b) = 0 := by
    rw [List.countP_eq_zero]
    intro y hy
    simp [outranks_false_of_lbBefore (hafter y hy)]
  rw [h1, h3, outranks_self]
  have hlen : ((sortedCompleted store qid).take i).length = i := by
    rw [List.length_take]
    omega
  simp [hlen]

/-! ### Claims -/

/-- C1: for every positive `basePoints` and non-negative `responseTime`,
`CalculateScore` returns 0 when the answer is incorrect; the full base points
when `responseTime ≤ 5`; `basePoints * (1 - ((responseTime - 5) / 5) * 0.3)`
when `5 < responseTime ≤ 10`; and `basePoints * 0.5` when `responseTime > 10`.
The code rounds to 2 decimal places with `math.Round` (ties away from zero,
modelled by `goRound`); on all of these values the product is exact in
hundredths, so the rounding is the identity and the returned value equals the
formula exactly. -/
theorem C1_calculateScore_policy (p t : ℤ) (hp : 0 < p) (ht : 0 ≤ t) :
    CalculateScore p t false = 0 ∧
    (t ≤ 5 → CalculateScore p t true = (p : ℚ)) ∧
    (5 < t → t ≤ 10 →
      CalculateScore p t true = (p : ℚ) * (1 - (((t : ℚ) - 5) / 5) * (3 / 10))) ∧
    (10 < t → CalculateScore p t true = (p : ℚ) * (1 / 2)) :=
  ⟨calculateScore_false p t, fun h => calculateScore_fast p t h,
    fun h1 h2 => calculateScore_mid p t h1 h2, fun h => calculateScore_slow p t h⟩

/-- Witness for C1 at `basePoints = 4`, `responseTime = 7`. -/
theorem C1_witness :
    CalculateScore 4 7 true = (4 : ℚ) * (1 - (((7 : ℚ) - 5) / 5) * (3 / 10)) :=
  (C1_calculateScore_policy 4 7 (by decide) (by decide)).2.2.1 (by decide) (by decide)

/-- C2 counterexample: the spec's test table demands `Score(p, 10, true) = 0.5p`,
but at `responseTime = 10` the code takes the `timeToAnswer <= 10` linear-decay
branch, whose multiplier at 10 is `1 - ((10-5)/5)*0.3 = 0.7`: for `p = 10` the
code returns 7, not 5. -/
theorem C2_counterexample :
    CalculateScore 10 10 true ≠ (1 / 2 : ℚ) * 10 ∧
    CalculateScore 10 10 true = (7 / 10 : ℚ) * 10 := by
  have h := calculateScore_mid 10 10 (by norm_num) (by norm_num)
  constructor
  · rw [h]
    norm_num
  · rw [h]
    norm_num

/-- C2 amended: the spec's scoring test table holds except at `t = 10`, where
the boundary belongs to the decay branch: `Score(p, t, true) = p` for
`0 ≤ t ≤ 5`; `Score(p, 10, true) = 0.7p` (not `0.5p`);
`Score(p, 7, true) = 0.88p`; and `Score(p, t, false) = 0` for every `t`. -/
theorem C2_amended_table (p : ℤ) (hp : 0 < p) :
    (∀ t : ℤ, 0 ≤ t → t ≤ 5 → CalculateScore p t true = (p : ℚ)) ∧
    CalculateScore p 10 true = (7 / 10 : ℚ) * p ∧
    CalculateScore p 7 true = (22 / 25 : ℚ) * p ∧
    (∀ t : ℤ, CalculateScore p t false = 0) := by
  refine ⟨fun t _ ht5 => calculateScore_fast p t ht5, ?_, ?_, fun t => calculateScore_false p t⟩
  · rw [calculateScore_mid p 10 (by norm_num) (by norm_num)]
    norm_num
    ring
  · rw [calculateScore_mid p 7 (by norm_num) (by norm_num)]
    norm_num
    ring

/-- Witness for the amended C2 at `p = 5`. -/
theorem C2_witness : CalculateScore 5 10 true = (7 / 10 : ℚ) * 5 :=
  (C2_amended_table 5 (by decide)).2.1

/-- C3 counterexample: for a multiple-choice question whose stored correct
answer is the option index 10, the code coerces it with
`string(rune(10 + '0'))` to the one-character string ":", so the submitted
string "10" is graded incorrect although index equality deems it correct. -/
theorem C3_counterexample :
    goIsCorrect "10" (CorrectAnswer.aInt 10) = false ∧
    specTypedEq QuestionType.multipleChoice "10" (CorrectAnswer.aInt 10) = true := by
  constructor
  · decide
  · decide

/-- C3 amended: the recorded correctness flag is the string equality between
the submitted string and a string coercion of the stored correct answer (a
bool becomes `"true"`/`"false"`; an index `v` becomes the single character of
code `v + '0'`), not exact-typed equality.  The two agree only on canonical
submissions: for indices `0 ≤ v, w ≤ 9` a single-digit submission is graded
by index equality, and for booleans a canonical `"true"`/`"false"` submission
is graded by boolean equality; beyond that range they diverge (index 10). -/
theorem C3_amended_string_comparison :
    (∀ (s : String) (ca : CorrectAnswer), goIsCorrect s ca = (s == goAnswerString ca)) ∧
    (∀ v : ℕ, v < 10 → ∀ w : ℕ, w < 10 →
      goIsCorrect (String.mk [Char.ofNat (w + 48)]) (CorrectAnswer.aInt (v : ℤ)) = (w == v)) ∧
    (∀ b c : Bool,
      goIsCorrect (if c then "true" else "false") (CorrectAnswer.aBool b) = (c == b)) := by
  refine ⟨fun s ca => rfl, ?_, ?_⟩
  · decide
  · decide

/-- Witness for the amended C3 at index 3 submitted as "3". -/
theorem C3_witness :
    goIsCorrect (String.mk [Char.ofNat (3 + 48)]) (CorrectAnswer.aInt ((3 : ℕ) : ℤ)) =
      ((3 : ℕ) == 3) :=
  C3_amended_string_comparison.2.1 3 (by decide) 3 (by decide)

/-- A user store that resolves every student id. -/
def usersAll : ℕ → Option User :=
  fun _ => some { firstName := "Student", lastName := "X" }

/-- A completed attempt of student 1: score 10, time 30, completed at 200. -/
def cexA : QuizAttempt :=
  { id := 1, quizId := 5, studentId := 1, answers := [], totalScore := 10,
    maxScore := 0, startedAt := 0, completedAt := some 200, timeTaken := 30 }

/-- A completed attempt of student 2 tying `cexA` on score and time but
completed earlier, at 100. -/
def cexB : QuizAttempt :=
  { id := 2, quizId := 5, studentId := 2, answers := [], totalScore := 10,
    maxScore := 0, startedAt := 0, completedAt := some 100, timeTaken := 30 }

/-- C4 counterexample: with the later-completed attempt stored first, the two
attempts tie on score and time-taken and the leaderboard keeps them in store
order — rank 1 goes to completion time 200 and rank 2 to completion time 100 —
so the output violates the claimed completion-timestamp-ascending tie-break
(the Mongo sort has no third key). -/
theorem C4_counterexample :
    ¬ List.Sorted specEntryBefore (getQuizLeaderboard usersAll [cexA, cexB] 5) ∧
    (getQuizLeaderboard usersAll [cexA, cexB] 5).map
        (fun e => (e.rank, e.score, e.timeTaken, e.completedAt)) =
      [(1, 10, 30, 200), (2, 10, 30, 100)] := by
  constructor
  · decide
  · decide

/-- C4 amended: `GetQuizLeaderboard` returns the completed attempts sorted by
total score descending with ties broken by time-taken ascending — ties on both
keys are left in store order, with no completion-timestamp tie-break — and
assigns each emitted entry the distinct 1-based rank equal to its position
(the ranks are exactly `1, 2, …, length`). -/
theorem C4_amended_sorted_ranked (users : ℕ → Option User)
    (store : List QuizAttempt) (qid : ℕ) :
    List.Sorted entryBefore (getQuizLeaderboard users store qid) ∧
    (getQuizLeaderboard users store qid).map (fun e => e.rank) =
      List.range' 1 (getQuizLeaderboard users store qid).length := by
  constructor
  · exact buildEntries_pairwise users _ 1 (List.sorted_insertionSort lbBefore _)
  · exact buildEntries_rank_map users _ 1

/-- C5 counterexample: student 2's best attempt ties student 1's attempt
exactly on (score, time-taken) and sits at leaderboard position 2, yet
`GetMyRank` counts zero strictly-better attempts and returns rank 1: the
returned rank differs from the attempt's position in the leaderboard. -/
theorem C5_counterexample :
    getMyRank [cexA, cexB] 5 2 = some 1 ∧
    (getQuizLeaderboard usersAll [cexA, cexB] 5).map (fun e => (e.rank, e.studentId)) =
      [(1, 1), (2, 2)] := by
  constructor
  · decide
  · decide

/-- C5 amended: when the student has a best completed attempt `b` for the
quiz, `GetMyRank` returns one plus the number of completed attempts for the
quiz that strictly outrank `b` (greater score, or equal score and strictly
smaller time-taken); no attempt of the student themself outranks `b`, so the
count only covers other students' attempts; and whenever no other completed
attempt ties `b` exactly on (score, time-taken), the returned rank equals the
1-based position of `b` in the sorted leaderboard order.  (With an exact tie,
as in the counterexample, the returned rank can be smaller than the
position.) -/
theorem C5_amended_myRank (store : List QuizAttempt) (qid sid : ℕ) (b : QuizAttempt)
    (hb : bestAttempt store qid sid = some b) :
    getMyRank store qid sid = some (countOutranking store qid b + 1) ∧
    (∀ a ∈ ownCompleted store qid sid, outranks a b = false) ∧
    (∀ (i : ℕ) (h : i < (sortedCompleted store qid).length),
      (sortedCompleted store qid).get ⟨i, h⟩ = b →
      (∀ x ∈ completedFor store qid,
        x.totalScore = b.totalScore → x.timeTaken = b.timeTaken → x = b) →
      (completedFor store qid).count b ≤ 1 →
      getMyRank store qid sid = some (i + 1)) := by
  refine ⟨?_, ?_, ?_⟩
  · unfold getMyRank
    rw [hb]
  · intro a ha
    exact outranks_false_of_lbBefore ((bestAttempt_le hb).2 a ha)
  · intro i h hget hkey hcount
    unfold getMyRank
    rw [hb]
    show some (countOutranking store qid b + 1) = some (i + 1)
    rw [← sorted_index_eq_countOutranking hkey hcount h hget]

/-- Witness for the amended C5: student 1's best attempt in the two-attempt
store is `cexA`, and the returned rank is one plus the outranking count. -/
theorem C5_witness :
    getMyRank [cexA, cexB] 5 1 = some (countOutranking [cexA, cexB] 5 cexA + 1) :=
  (C5_amended_myRank [cexA, cexB] 5 1 cexA (by decide)).1

/-- C6: in every store reachable by any sequence of `startAttempt`,
`submitAnswer` and `completeAttempt` calls — given the creation-time
validation that every question is worth at least one point — every attempt's
total score never exceeds its max score (the snapshot sum of the quiz's
question base points taken at creation). -/
theorem C6_total_le_max (quizzes : ℕ → Option Quiz) (cc : ℕ → String → Option Bool)
    (hq : PointsPositive quizzes) (store : List QuizAttempt)
    (hr : Reach quizzes cc store) :
    ∀ a ∈ store, a.totalScore ≤ a.maxScore := by
  intro a ha
  obtain ⟨-, hB, -⟩ := reach_inv hq hr
  obtain ⟨quiz, hq0, -, -, -, hineq, -⟩ := hB a ha
  have hun : 0 ≤ unansweredSum quiz a := by
    apply sumPoints_nonneg
    intro q hqm
    exact le_of_lt (hq _ quiz hq0 q (List.mem_of_mem_filter hqm))
  linarith

/-- The one-question quiz used by the concrete witnesses. -/
def question0 : Question :=
  { id := 7, qtype := QuestionType.trueFalse, options := [],
    correctAnswer := CorrectAnswer.aBool true, timeLimit := 15, points := 10 }

/-- An approved quiz holding `question0`. -/
def quiz0 : Quiz :=
  { courseId := "c1", status := QuizStatus.approved, questions := [question0] }

/-- A quiz store resolving every id to `quiz0`. -/
def quizzes0 : ℕ → Option Quiz := fun _ => some quiz0

/-- A course-completion predicate that always returns true. -/
def cc0 : ℕ → String → Option Bool := fun _ _ => some true

/-- The attempt created by `startAttempt quizzes0 cc0 [] 2 5 0 3`. -/
def attempt0 : QuizAttempt :=
  { id := 3, quizId := 5, studentId := 2, answers := [], totalScore := 0,
    maxScore := sumPoints quiz0.questions, startedAt := 0, completedAt := none,
    timeTaken := 0 }

/-- The store after that one `startAttempt` call. -/
def store0 : List QuizAttempt := [attempt0]

theorem pointsPositive_quizzes0 : PointsPositive quizzes0 := by
  intro qid quiz h q hqm
  injection h with h
  subst h
  simp only [quiz0] at hqm
  rw [List.mem_singleton] at hqm
  subst hqm
  decide

theorem reach_store0 : Reach quizzes0 cc0 store0 :=
  Reach.start Reach.init rfl

/-- Witness for C6 on the concrete reachable store `store0`. -/
theorem C6_witness : attempt0.totalScore ≤ attempt0.maxScore :=
  C6_total_le_max quizzes0 cc0 pointsPositive_quizzes0 store0 reach_store0 attempt0
    (List.mem_singleton.mpr rfl)

/-- C7: in every reachable store, each (student, quiz) pair has at most one
in-progress attempt; whenever an in-progress attempt for the pair exists,
`startAttempt` rejects the call with a conflict and leaves the store
unchanged; and a successful `startAttempt` implies no in-progress attempt for
the pair existed, the new attempt being appended to the store. -/
theorem C7_one_inprogress (quizzes : ℕ → Option Quiz) (cc : ℕ → String → Option Bool)
    (hq : PointsPositive quizzes) (store : List QuizAttempt)
    (hr : Reach quizzes cc store) :
    (∀ sid qid : ℕ, store.countP (inProgressFor qid sid) ≤ 1) ∧
    (∀ (sid qid : ℕ) (now : ℚ) (newId : ℕ) (a : QuizAttempt),
      store.find? (inProgressFor qid sid) = some a →
      startAttempt quizzes cc store sid qid now newId = (store, HResult.error Err.conflict)) ∧
    (∀ (sid qid : ℕ) (now : ℚ) (newId : ℕ) (store' : List QuizAttempt) (a : QuizAttempt),
      startAttempt quizzes cc store sid qid now newId = (store', HResult.ok a) →
      store.find? (inProgressFor qid sid) = none ∧ store' = store ++ [a]) := by
  obtain ⟨-, hB, hC⟩ := reach_inv hq hr
  refine ⟨fun sid qid => hC sid qid, ?_, ?_⟩
  · intro sid qid now newId a hfind
    have hamem := List.mem_of_find?_eq_some hfind
    have hpred := List.find?_some hfind
    simp only [inProgressFor, Bool.and_eq_true, beq_iff_eq] at hpred
    obtain ⟨⟨hq1, hs1⟩, hc1⟩ := hpred
    obtain ⟨quiz, hqz, hst, hcc, -, -, -⟩ := hB a hamem
    rw [hq1] at hqz
    rw [hs1] at hcc
    simp [startAttempt, hqz, hst, hcc, hfind]
  · intro sid qid now newId store' a hok
    rcases startAttempt_cases hok with ⟨-, e, habs⟩ |
      ⟨quiz, -, -, -, hfind, -, rfl, hres⟩
    · exact (HResult.noConfusion habs)
    · injection hres with hres
      exact ⟨hfind, by rw [hres]⟩

/-- Witness for C7 on the concrete reachable store `store0`. -/
theorem C7_witness : store0.countP (inProgressFor 5 2) ≤ 1 :=
  (C7_one_inprogress quizzes0 cc0 pointsPositive_quizzes0 store0 reach_store0).1 2 5

/-- C8: `submitAnswer` is atomic.  Every failing call (attempt not found or
not owned, attempt already completed, quiz or question not found, duplicate
answer, time limit exceeded) leaves the store unchanged; every successful call
updates exactly one attempt, appending the answer AND incrementing the total
score by that answer's earned points in the same update, leaving every other
attempt untouched. -/
theorem C8_submit_atomic (quizzes : ℕ → Option Quiz) (store : List QuizAttempt)
    (sid aid qid : ℕ) (submitted : String) (t : ℤ) (now : ℚ)
    (hn : idsNodup store) :
    (∀ e : Err, (submitAnswer quizzes store sid aid qid submitted t now).2 = HResult.error e →
      (submitAnswer quizzes store sid aid qid submitted t now).1 = store) ∧
    (∀ (store' : List QuizAttempt) (c : Bool) (pts : ℚ),
      submitAnswer quizzes store sid aid qid submitted t now = (store', HResult.ok (c, pts)) →
      ∃ (a : QuizAttempt) (l₁ l₂ : List QuizAttempt) (ans : Answer),
        store = l₁ ++ a :: l₂ ∧
        ans.questionId = qid ∧ ans.isCorrect = c ∧ ans.pointsEarned = pts ∧
        store' = l₁ ++
          { a with answers := a.answers ++ [ans], totalScore := a.totalScore + pts } :: l₂) := by
  constructor
  · intro e he
    rcases hgen : submitAnswer quizzes store sid aid qid submitted t now with ⟨st2, r2⟩
    rw [hgen] at he
    rcases submitAnswer_cases hgen with ⟨rfl, -⟩ | ⟨a1, q1, qu1, -, -, -, -, -, -, hok, -⟩
    · rfl
    · rw [hok] at he
      exact (HResult.noConfusion he)
  · intro store' c pts heq
    rcases submitAnswer_cases heq with ⟨-, e, habs⟩ |
      ⟨attempt, quiz, question, hfa, -, -, -, -, -, hres, rfl⟩
    · exact (HResult.noConfusion habs)
    · injection hres with hres
      injection hres with hc hpts
      subst hc
      subst hpts
      obtain ⟨l₁, l₂, hsplit, hupd, -, -⟩ := updateFirst_decomp hn hfa _
      exact ⟨attempt, l₁, l₂, _, hsplit, rfl, rfl, rfl, hupd⟩

/-- The answer record produced by submitting "true" for `question0` after 4
seconds at time 100. -/
def answer0 : Answer :=
  { questionId := 7, studentAnswer := "true",
    isCorrect := goIsCorrect "true" question0.correctAnswer,
    timeToAnswer := 4,
    pointsEarned := CalculateScore question0.points 4
      (goIsCorrect "true" question0.correctAnswer),
    answeredAt := 100 }

/-- The store after that successful `submitAnswer` call on `store0`. -/
def store1 : List QuizAttempt :=
  [{ attempt0 with
      answers := attempt0.answers ++ [answer0],
      totalScore := attempt0.totalScore + CalculateScore question0.points 4
        (goIsCorrect "true" question0.correctAnswer) }]

/-- Witness for C8: the concrete successful submission on `store0` appends the
answer and increments the score together. -/
theorem C8_witness :
    ∃ (a : QuizAttempt) (l₁ l₂ : List QuizAttempt) (ans : Answer),
      store0 = l₁ ++ a :: l₂ ∧
      ans.questionId = 7 ∧
      ans.isCorrect = goIsCorrect "true" question0.correctAnswer ∧
      ans.pointsEarned = CalculateScore question0.points 4
        (goIsCorrect "true" question0.correctAnswer) ∧
      store1 = l₁ ++
        { a with
          answers := a.answers ++ [ans],
          totalScore := a.totalScore + CalculateScore question0.points 4
            (goIsCorrect "true" question0.correctAnswer) } :: l₂ :=
  (C8_submit_atomic quizzes0 store0 2 3 7 "true" 4 100 (by simp [idsNodup, store0])).2 store1
    (goIsCorrect "true" question0.correctAnswer)
    (CalculateScore question0.points 4 (goIsCorrect "true" question0.correctAnswer))
    rfl

/-- C9: on a reachable store, completing an in-progress attempt succeeds —
no matter how many questions are still unanswered — and the single update sets
the completion timestamp to the current time and the time-taken to the
wall-clock difference from the start timestamp truncated to whole seconds,
while the answers, the total score (which equals the sum of the recorded
answers' earned points, unanswered questions contributing nothing) and the max
score are left unchanged; completing an already-completed attempt is rejected
with no state change. -/
theorem C9_complete_attempt (quizzes : ℕ → Option Quiz) (cc : ℕ → String → Option Bool)
    (hq : PointsPositive quizzes) (store : List QuizAttempt)
    (hr : Reach quizzes cc store) (sid aid : ℕ) (now : ℚ) (a : QuizAttempt)
    (hfa : store.find? (fun x => x.id == aid && x.studentId == sid) = some a) :
    (a.completedAt = none →
      ∃ l₁ l₂, store = l₁ ++ a :: l₂ ∧
        completeAttempt store sid aid now =
          (l₁ ++ { a with completedAt := some now,
                          timeTaken := ratTrunc (now - a.startedAt) } :: l₂,
           HResult.ok ()) ∧
        a.totalScore = answersSum a.answers) ∧
    (∀ v : ℚ, a.completedAt = some v →
      completeAttempt store sid aid now = (store, HResult.error Err.badRequest)) := by
  obtain ⟨hA, hB, -⟩ := reach_inv hq hr
  constructor
  · intro hnone
    obtain ⟨l₁, l₂, hsplit, hupd, -, -⟩ := updateFirst_decomp hA hfa
      (fun x => { x with completedAt := some now,
                         timeTaken := ratTrunc (now - a.startedAt) })
    refine ⟨l₁, l₂, hsplit, ?_, ?_⟩
    · have hiss : a.completedAt.isSome = false := by rw [hnone]; rfl
      simp only [completeAttempt, hfa, hiss, Bool.false_eq_true, if_false]
      rw [hupd]
    · obtain ⟨quiz, -, -, -, -, -, hsum⟩ := hB a (List.mem_of_find?_eq_some hfa)
      exact hsum
  · intro v hsome
    have hiss : a.completedAt.isSome = true := by rw [hsome]; rfl
    simp only [completeAttempt, hfa, hiss, if_true]

/-- Witness for C9: completing the in-progress attempt of `store0` at time 50. -/
theorem C9_witness :
    ∃ l₁ l₂, store0 = l₁ ++ attempt0 :: l₂ ∧
      completeAttempt store0 2 3 50 =
        (l₁ ++ { attempt0 with
                  completedAt := some 50,
                  timeTaken := ratTrunc (50 - attempt0.startedAt) } :: l₂,
         HResult.ok ()) ∧
      attempt0.totalScore = answersSum attempt0.answers :=
  (C9_complete_attempt quizzes0 cc0 pointsPositive_quizzes0 store0 reach_store0
    2 3 50 attempt0 rfl).1 rfl

theorem optSum_eq_none_of_mem {l : List (Option ℚ)} (h : none ∈ l) : optSum l = none := by
  induction l with
  | nil => simp at h
  | cons x xs ih =>
    rcases List.mem_cons.mp h with rfl | hmem
    · cases hx : optSum xs <;> simp [optSum, optAdd, hx]
    · unfold optSum
      rw [ih hmem]
      cases x <;> rfl

/-- C10: the global-leaderboard aggregation computes each attempt's percentage
as `(total_score / max_score) * 100` with no guard for a zero max score: for a
completed attempt whose max score is 0, the `$divide`'s divisor is zero and
the modelled division is undefined (`none`), making the whole per-student
average undefined; by contrast, `GetQuizLeaderboard`'s guarded percentage of
the same attempt is 0. -/
theorem C10_zero_max_divisor (store : List QuizAttempt) (a : QuizAttempt)
    (ha : a ∈ store) (hc : a.completedAt.isSome = true) (hm : a.maxScore = 0) :
    globalPct a = none ∧ globalAvg store a.studentId = none ∧ quizPercentage a = 0 := by
  have hpct : globalPct a = none := by simp [globalPct, mongoDiv, hm]
  refine ⟨hpct, ?_, by simp [quizPercentage, hm]⟩
  unfold globalAvg
  have hmine : a ∈ store.filter (fun x => x.completedAt.isSome && x.studentId == a.studentId) := by
    rw [List.mem_filter]
    exact ⟨ha, by simp [hc]⟩
  have hlen : ¬ (store.filter
      (fun x => x.completedAt.isSome && x.studentId == a.studentId)).length = 0 := by
    intro h0
    rw [List.length_eq_zero] at h0
    rw [h0] at hmine
    simp at hmine
  rw [if_neg hlen]
  have hnone : optSum ((store.filter
      (fun x => x.completedAt.isSome && x.studentId == a.studentId)).map globalPct) = none :=
    optSum_eq_none_of_mem (List.mem_map.mpr ⟨a, hmine, hpct⟩)
  rw [hnone]
  rfl

/-- Witness for C10 on the zero-max-score completed attempt `cexA`. -/
theorem C10_witness :
    globalPct cexA = none ∧ globalAvg [cexA] cexA.studentId = none ∧ quizPercentage cexA = 0 :=
  C10_zero_max_divisor [cexA] cexA (List.mem_singleton.mpr rfl) rfl rfl
